import Mathlib

/-!
Shallow embedding of the two watcher programs of this repository:
`src/extract_msg.ts` (the log-file source) and `src/extract_cursor.mjs`
(the key-value / Cursor-database source).

File contents and database snapshots are explicit inputs: a tick receives
the directory-walk result and a snapshot function from paths to contents
(respectively a fetch function from bubble ids to stored text), so that
every run of the poll loop is a pure fold over a schedule of snapshots.
`JSON.parse` is an external platform primitive and is passed in as a
`parse` function producing the record shape the program reads.
-/

namespace Extract

/-- Model of the JavaScript whitespace test used by `String.prototype.trim`. -/
def wsB (c : Char) : Bool := c.isWhitespace

/-- Trim whitespace from both ends of a character list
(model of `String.prototype.trim`). -/
def trimChars (l : List Char) : List Char :=
  ((l.dropWhile wsB).reverse.dropWhile wsB).reverse

/-- Model of JavaScript `s.trim()`. -/
def jsTrim (s : String) : String := String.mk (trimChars s.data)

/-- Character-list prefix test, used to model `String.prototype.startsWith`. -/
def isPre : List Char → List Char → Bool
  | [], _ => true
  | _ :: _, [] => false
  | a :: as, b :: bs => a = b && isPre as bs

/-- Model of JavaScript `s.startsWith(pre)`. -/
def jsStartsWith (s pre : String) : Bool := isPre pre.data s.data

/-- Model of JavaScript `s.includes(sub)` (substring test), via `splitOn`. -/
def jsIncludes (s sub : String) : Bool :=
  sub = "" || decide (2 ≤ (s.splitOn sub).length)

/-- The `Message` interface of `src/extract_msg.ts`
(`type`, `text`, `timestamp`, `id`). -/
structure Message where
  mtype : String
  text : String
  timestamp : String
  id : String
deriving DecidableEq

/-- One element of `data.message.content`: the fields read are `item.type`
and `item.text` (the latter may be absent). -/
structure ContentItem where
  itemType : String
  text : Option String
deriving DecidableEq

/-- The fields of a parsed log line that `extractAllMessages` reads.
`agentId` is the truthiness of `data.agentId`; `message` is `none` when
`data.message` is absent or falsy, otherwise it holds `data.message.content`
(defaulted to `[]` when absent, as `data.message.content || []` does);
`timestamp` and `uuid` are `none` when absent or falsy. -/
structure JsonRecord where
  agentId : Bool
  rtype : Option String
  message : Option (List ContentItem)
  timestamp : Option String
  uuid : Option String
deriving DecidableEq

/-- The user branch of `extractAllMessages`: a `"text"` content item is
trimmed, and kept unless empty or starting with `"<"` or
`"This may or may not"`. -/
def userItemMsg (data : JsonRecord) (item : ContentItem) : Option Message :=
  if item.itemType = "text" then
    let text := (item.text.map jsTrim).getD ""
    if text ≠ "" ∧ jsStartsWith text "<" = false ∧
        jsStartsWith text "This may or may not" = false then
      some ⟨"user", text, data.timestamp.getD "", data.uuid.getD ""⟩
    else none
  else none

/-- The assistant branch of `extractAllMessages`: a `"text"` content item is
trimmed and kept when non-empty, with no sentinel filtering. -/
def assistantItemMsg (data : JsonRecord) (item : ContentItem) : Option Message :=
  if item.itemType = "text" then
    let text := (item.text.map jsTrim).getD ""
    if text ≠ "" then
      some ⟨"assistant", text, data.timestamp.getD "", data.uuid.getD ""⟩
    else none
  else none

/-- Per-record normalization of `extractAllMessages`: drop records carrying
`agentId`, then dispatch on `data.type` with `data.message` present. -/
def processRecord (data : JsonRecord) : List Message :=
  if data.agentId then []
  else if data.rtype = some "user" then
    match data.message with
    | some content => content.filterMap (userItemMsg data)
    | none => []
  else if data.rtype = some "assistant" then
    match data.message with
    | some content => content.filterMap (assistantItemMsg data)
    | none => []
  else []

/-- One line of the stream: a failed `JSON.parse` is skipped. -/
def processLine (parse : List Char → Option JsonRecord) (l : List Char) :
    List Message :=
  match parse l with
  | none => []
  | some data => processRecord data

/-- Line splitting as performed by `readline` over the read stream: a line is
emitted at each newline, and the remaining buffer is emitted as a final line
when the stream ends, even without a terminating newline. -/
def rlLinesAux : List Char → List Char → List (List Char)
  | acc, [] => if acc.isEmpty then [] else [acc.reverse]
  | acc, c :: cs =>
    if c = '\n' then acc.reverse :: rlLinesAux [] cs
    else rlLinesAux (c :: acc) cs

/-- All lines `readline` yields for a character stream. -/
def rlLines (cs : List Char) : List (List Char) := rlLinesAux [] cs

/-- `extractAllMessages` over file content starting at byte offset `lastPos`,
with an optional internal failure point: `fail = some k` models the read
stream throwing after `k` lines were delivered — the surrounding `try` block
catches the error and the messages collected so far are returned. -/
def extractAllMessagesF (parse : List Char → Option JsonRecord)
    (content : List Char) (lastPos : Nat) (fail : Option Nat) : List Message :=
  let ls := rlLines (content.drop lastPos)
  let ls := match fail with
    | none => ls
    | some k => ls.take k
  (ls.map (processLine parse)).flatten

/-- `extractAllMessages` without an internal failure. -/
def extractAllMessages (parse : List Char → Option JsonRecord)
    (content : List Char) (lastPos : Nat) : List Message :=
  extractAllMessagesF parse content lastPos none

/-- The mutable run state of `watchConversations`: `filePositions` and
`seenResponses` keyed by file path (`none` / `[]` meaning absent). -/
structure WatchState where
  filePositions : String → Option Nat
  seenResponses : String → List String

/-- State at process start: both maps empty. -/
def initState : WatchState := ⟨fun _ => none, fun _ => []⟩

/-- One message handed to the emitter by the log-file source, together with
the unit it came from (the file path) and the displayed project label. -/
structure LogEmission where
  project : String
  filePath : String
  message : Message
deriving DecidableEq

/-- The display loop over a batch: each message whose `id` is not in the
seen-set is added and emitted, in batch order. -/
def emitNew : List String → List Message → List String × List Message
  | seen, [] => (seen, [])
  | seen, m :: ms =>
    if m.id ∈ seen then emitNew seen ms
    else
      let r := emitNew (m.id :: seen) ms
      (r.1, m :: r.2)

/-- The per-file body of `watchConversations`. A never-seen file has its
position initialized to the current size and is skipped (no read, no
emission); otherwise the file is read from the stored position, the position
is overwritten with the current size, and new messages are deduplicated
against the per-file seen-set and emitted. `fsys` is the per-tick filesystem
snapshot (`none` models `statSync`/read errors); `fail` injects a mid-batch
read failure as in `extractAllMessagesF`. -/
def processFile (parse : List Char → Option JsonRecord)
    (fsys : String → Option (List Char)) (fail : Option Nat)
    (project : String) (st : WatchState) (filePath : String) :
    WatchState × List LogEmission :=
  match st.filePositions filePath with
  | none =>
    match fsys filePath with
    | some c =>
      ({ st with filePositions :=
          fun p => if p = filePath then some c.length else st.filePositions p },
        [])
    | none => (st, [])
  | some lastPos =>
    let msgs := match fsys filePath with
      | some c => extractAllMessagesF parse c lastPos fail
      | none => []
    let st1 : WatchState := match fsys filePath with
      | some c =>
        { st with filePositions :=
            fun p => if p = filePath then some c.length else st.filePositions p }
      | none => st
    let r := emitNew (st1.seenResponses filePath) msgs
    let st2 : WatchState :=
      { st1 with seenResponses :=
          fun p => if p = filePath then r.1 else st1.seenResponses p }
    (st2, r.2.map (fun m => ⟨project, filePath, m⟩))

/-- Project filter of `findConversationFiles`: keep a parent directory when
no filter is given, or when its lower-cased name contains the lower-cased
filter string. -/
def keepProject (filt : Option String) (parent : String) : Bool :=
  match filt with
  | none => true
  | some f => jsIncludes parent.toLower f.toLower

/-- Insert one discovered file into the project map, preserving the
insertion order of projects and of files (JavaScript `Map` semantics). -/
def insertFile (m : List (String × List String)) (parent f : String) :
    List (String × List String) :=
  match m with
  | [] => [(parent, [f])]
  | (k, fl) :: rest =>
    if k = parent then (k, fl ++ [f]) :: rest
    else (k, fl) :: insertFile rest parent f

/-- `findConversationFiles`: group the walk's `.jsonl` hits (given as
`(parent directory, path)` pairs in discovery order) by parent, applying the
project filter. -/
def findConversationFiles (filt : Option String)
    (walk : List (String × String)) : List (String × List String) :=
  walk.foldl
    (fun m pf => if keepProject filt pf.1 then insertFile m pf.1 pf.2 else m) []

/-- Code-unit comparison of characters, as JavaScript string comparison
performs it. -/
def charLtB (a b : Char) : Bool := decide (a.toNat < b.toNat)

/-- Lexicographic comparison of character lists (JavaScript `<` on
strings). -/
def strLtB : List Char → List Char → Bool
  | [], [] => false
  | [], _ :: _ => true
  | _ :: _, [] => false
  | a :: as, b :: bs => if a = b then strLtB as bs else charLtB a b

/-- Non-strict string comparison used to model the default
`Array.prototype.sort` order. -/
def strLeB (s t : String) : Bool := ! strLtB t.data s.data

/-- Insert one key into an already sorted key list. -/
def insertSorted (a : String) : List String → List String
  | [] => [a]
  | b :: bs => if strLeB a b then a :: b :: bs else b :: insertSorted a bs

/-- Model of `Array.prototype.sort` on project keys (insertion sort; the
observable contract is the sorted result). -/
def sortStrings : List String → List String
  | [] => []
  | a :: as => insertSorted a (sortStrings as)

/-- Sortedness of a string list under the JavaScript comparison order. -/
def StrSorted (l : List String) : Prop :=
  l.Pairwise (fun a b => strLeB a b = true)

/-- Inner loop of a tick: process every file of one project in order. -/
def runFiles (parse : List Char → Option JsonRecord)
    (fsys : String → Option (List Char)) (project : String) :
    WatchState → List String → WatchState × List LogEmission
  | st, [] => (st, [])
  | st, f :: fl =>
    let r1 := processFile parse fsys none project st f
    let r2 := runFiles parse fsys project r1.1 fl
    (r2.1, r1.2 ++ r2.2)

/-- Outer loop of a tick: process projects in the given (sorted) key order,
looking each key up in the project map. -/
def runProjects (parse : List Char → Option JsonRecord)
    (fsys : String → Option (List Char))
    (convFiles : List (String × List String)) :
    WatchState → List String → WatchState × List LogEmission
  | st, [] => (st, [])
  | st, pr :: prs =>
    let files := (convFiles.lookup pr).getD []
    let r1 := runFiles parse fsys pr st files
    let r2 := runProjects parse fsys convFiles r1.1 prs
    (r2.1, r1.2 ++ r2.2)

/-- One tick of `watchConversations`: sort the project keys, then process
every project's files. -/
def tickLog (parse : List Char → Option JsonRecord)
    (fsys : String → Option (List Char)) (st : WatchState)
    (convFiles : List (String × List String)) :
    WatchState × List LogEmission :=
  runProjects parse fsys convFiles st (sortStrings (convFiles.map Prod.fst))

/-- External input of one tick: the directory walk result and the
filesystem snapshot. -/
structure TickInput where
  walk : List (String × String)
  fsys : String → Option (List Char)

/-- The poll loop of `watchConversations` over a finite schedule of ticks,
threading the state and concatenating emissions in order. -/
def watchRun (parse : List Char → Option JsonRecord) (filt : Option String) :
    WatchState → List TickInput → WatchState × List LogEmission
  | st, [] => (st, [])
  | st, t :: ts =>
    let r1 := tickLog parse t.fsys st (findConversationFiles filt t.walk)
    let r2 := watchRun parse filt r1.1 ts
    (r2.1, r1.2 ++ r2.2)

/-- `watchConversations` started from the empty state. -/
def watchConversations (parse : List Char → Option JsonRecord)
    (filt : Option String) (sched : List TickInput) :
    WatchState × List LogEmission :=
  watchRun parse filt initState sched

/-- Poll interval of the log-file source (`setTimeout(resolve, 100)`). -/
def msgPollIntervalMs : Nat := 100

/-- Poll interval of the key-value source (`setTimeout(resolve, 500)`). -/
def cursorPollIntervalMs : Nat := 500

/-- One entry of `fullConversationHeadersOnly`: a bubble id and the header
type code (`1` means user). -/
structure Header where
  bubbleId : String
  htype : Nat
deriving DecidableEq

/-- One conversation as returned by `loadConversations`: its display name
and its header list. -/
structure Conversation where
  cname : String
  headers : List Header
deriving DecidableEq

/-- One message printed by the key-value source: conversation name, role,
the (untrimmed) stored text, and the bubble id it was deduplicated by. -/
structure CEmission where
  convName : String
  isUser : Bool
  text : String
  bubbleId : String
deriving DecidableEq

/-- The header loop of `watchCursorConversations`: an unseen bubble id is
marked seen first, then its body is looked up; a found body with non-blank
trim is printed (untrimmed). `fetch` models the per-bubble database lookup,
with `none` covering a missing row or a JSON parse failure. -/
def processHeaders (fetch : String → Option String) (cn : String) :
    List String → List Header → List String × List CEmission
  | seen, [] => (seen, [])
  | seen, h :: hs =>
    if h.bubbleId ∈ seen then processHeaders fetch cn seen hs
    else
      let seen1 := h.bubbleId :: seen
      let here : List CEmission :=
        match fetch h.bubbleId with
        | some t => if jsTrim t ≠ "" then [⟨cn, h.htype == 1, t, h.bubbleId⟩] else []
        | none => []
      let r := processHeaders fetch cn seen1 hs
      (r.1, here ++ r.2)

/-- Conversation name filter of the key-value source. -/
def keepConv (filt : Option String) (name : String) : Bool :=
  match filt with
  | none => true
  | some f => jsIncludes name.toLower f.toLower

/-- The conversation loop of one tick of `watchCursorConversations`,
in the order the store query returned the conversations. -/
def processConversations (fetch : String → Option String)
    (filt : Option String) :
    List String → List Conversation → List String × List CEmission
  | seen, [] => (seen, [])
  | seen, c :: cs =>
    if keepConv filt c.cname then
      let r1 := processHeaders fetch c.cname seen c.headers
      let r2 := processConversations fetch filt r1.1 cs
      (r2.1, r1.2 ++ r2.2)
    else processConversations fetch filt seen cs

/-- External input of one key-value tick: the bubble lookup snapshot and
the conversation list returned by `loadConversations`. -/
structure CursorTick where
  fetch : String → Option String
  convs : List Conversation

/-- The poll loop of `watchCursorConversations` over a finite schedule,
threading the single global seen-set. -/
def cursorRun (filt : Option String) :
    List String → List CursorTick → List String × List CEmission
  | seen, [] => (seen, [])
  | seen, t :: ts =>
    let r1 := processConversations t.fetch filt seen t.convs
    let r2 := cursorRun filt r1.1 ts
    (r2.1, r1.2 ++ r2.2)

/-- `watchCursorConversations` started from the empty seen-set. -/
def watchCursorConversations (filt : Option String)
    (sched : List CursorTick) : List String × List CEmission :=
  cursorRun filt [] sched

/-- Identifiers of the messages a given file path has emitted, in emission
order. -/
def logIds (p : String) (ems : List LogEmission) : List String :=
  (ems.filter fun e => e.filePath == p).map fun e => e.message.id

/-- Dedup invariant of the log-file source: per unit, emitted identifiers
are pairwise distinct and recorded in the unit's seen-set. -/
def LInv (st : WatchState) (ems : List LogEmission) : Prop :=
  ∀ p, (logIds p ems).Nodup ∧ ∀ i ∈ logIds p ems, i ∈ st.seenResponses p

/-- Dedup invariant of the key-value source: emitted bubble ids are globally
pairwise distinct and recorded in the global seen-set. -/
def CInv (seen : List String) (ems : List CEmission) : Prop :=
  (ems.map CEmission.bubbleId).Nodup ∧
    ∀ i ∈ ems.map CEmission.bubbleId, i ∈ seen

/-- A message text in emitted form: non-empty and a fixed point of
trimming. -/
def GoodMsg (m : Message) : Prop := m.text ≠ "" ∧ jsTrim m.text = m.text

/-! Concrete inputs used to evaluate the model at explicit points. -/

/-- A parse function under which no line is valid JSON. -/
def pNone : List Char → Option JsonRecord := fun _ => none

/-- A user record with one text item `"hi"` and uuid `"id1"`. -/
def recEx : JsonRecord :=
  ⟨false, some "user", some [⟨"text", some "hi"⟩], none, some "id1"⟩

/-- A parse function mapping exactly the completed line of the partial-line
scenario to `recEx`. -/
def parseEx (l : List Char) : Option JsonRecord :=
  if l = "{u1}".data then some recEx else none

/-- Snapshot before the partial line is appended. -/
def fsC3a : String → Option (List Char) :=
  fun s => if s = "f" then some "x\n".data else none

/-- Snapshot with the trailing partial JSON line `{u` (no newline). -/
def fsC3b : String → Option (List Char) :=
  fun s => if s = "f" then some "x\n\x7bu".data else none

/-- Snapshot after the partial line is completed to `{u1}` and
terminated. -/
def fsC3c : String → Option (List Char) :=
  fun s => if s = "f" then some "x\n{u1}\n".data else none

/-- Three-tick schedule of the partial-line scenario. -/
def schedC3 : List TickInput :=
  [⟨[("p", "f")], fsC3a⟩, ⟨[("p", "f")], fsC3b⟩, ⟨[("p", "f")], fsC3c⟩]

/-- Two-tick schedule in which the watched file shrinks from 5 bytes to
3 bytes. -/
def schedC4 : List TickInput :=
  [⟨[("p", "f")], fun s => if s = "f" then some "abcde".data else none⟩,
    ⟨[("p", "f")], fun s => if s = "f" then some "abc".data else none⟩]

/-- Two user records with distinct uuids, used for the mid-batch failure
scenario. -/
def recA : JsonRecord :=
  ⟨false, some "user", some [⟨"text", some "A"⟩], none, some "u1"⟩

/-- Second record of the mid-batch failure scenario. -/
def recB : JsonRecord :=
  ⟨false, some "user", some [⟨"text", some "B"⟩], none, some "u2"⟩

/-- Parse function for the two-line batch `{a}`, `{b}`. -/
def parseC5 (l : List Char) : Option JsonRecord :=
  if l = "{a}".data then some recA
  else if l = "{b}".data then some recB
  else none

/-- File content holding the two-line batch. -/
def contentC5 : List Char := "{a}\n{b}\n".data

/-- State in which file `f` is already tracked from position 0 with nothing
seen. -/
def stC5 : WatchState :=
  ⟨fun p => if p = "f" then some 0 else none, fun _ => []⟩

/-- Snapshot serving the two-line batch for file `f`. -/
def fsysC5 : String → Option (List Char) :=
  fun s => if s = "f" then some contentC5 else none

/-- Bubble lookup storing `"hello"` under bubble id `b1`. -/
def fetchC2 : String → Option String :=
  fun b => if b = "b1" then some "hello" else none

/-- A conversation that already has one header when first discovered. -/
def convC2 : Conversation := ⟨"c", [⟨"b1", 1⟩]⟩

/-- Bubble lookup under which every bubble resolves to `"hi"`. -/
def fetchHi : String → Option String := fun _ => some "hi"

/-- Two conversations whose names are in descending order, each with one
fresh header. -/
def convsC6 : List Conversation := [⟨"b", [⟨"x", 1⟩]⟩, ⟨"a", [⟨"y", 2⟩]⟩]

/-- Bubble lookup storing text with leading whitespace. -/
def fetchC7 : String → Option String :=
  fun b => if b = "b" then some " hi" else none

/-- A user record with no uuid field. -/
def recU : JsonRecord :=
  ⟨false, some "user", some [⟨"text", some "hi"⟩], none, none⟩

/-- The message `recU` normalizes to: its id collapses to the empty
string. -/
def mU : Message := ⟨"user", "hi", "", ""⟩

/-- State in which file `f` is tracked from position 2 (the pre-existing
content size of the partial-line scenario). -/
def stW3 : WatchState :=
  ⟨fun p => if p = "f" then some 2 else none, fun _ => []⟩

/-- Bubble lookup of the attribution scenario: bubble `b` resolves to
`"hi"`. -/
def fetch10 : String → Option String :=
  fun b => if b = "b" then some "hi" else none

/-- First conversation scanned in the attribution scenario. -/
def conv10a : Conversation := ⟨"c1", [⟨"b", 1⟩]⟩

/-- Second conversation sharing the same bubble id. -/
def conv10b : Conversation := ⟨"c2", [⟨"b", 2⟩]⟩

/-- The emission the attribution scenario produces. -/
def e10 : CEmission := ⟨"c1", true, "hi", "b"⟩

/-- Snapshot holding a two-byte file `f`, used to exercise the first-sight
branch. -/
def fsW2 : String → Option (List Char) :=
  fun s => if s = "f" then some "ab".data else none

/-- The message record `recA` normalizes to. -/
def mA : Message := ⟨"user", "A", "", "u1"⟩

/-- Snapshot of the emission scenario before the file has content. -/
def fsC7a : String → Option (List Char) :=
  fun s => if s = "f" then some "".data else none

/-- Snapshot of the emission scenario after one complete valid line. -/
def fsC7b : String → Option (List Char) :=
  fun s => if s = "f" then some "{u1}\n".data else none

/-- Two-tick schedule that makes the log source emit one message. -/
def schedC7 : List TickInput :=
  [⟨[("p", "f")], fsC7a⟩, ⟨[("p", "f")], fsC7b⟩]

/-- The emission `schedC7` produces. -/
def e7 : LogEmission := ⟨"p", "f", ⟨"user", "hi", "", "id1"⟩⟩

/-! Helper lemmas about trimming. -/

theorem head_dropWhile_false (p : Char → Bool) (l : List Char) (x : Char)
    (h : (l.dropWhile p).head? = some x) : p x = false := by
  induction l with
  | nil => simp [List.dropWhile] at h
  | cons a l ih =>
    by_cases hp : p a
    · rw [List.dropWhile_cons, if_pos hp] at h
      exact ih h
    · rw [List.dropWhile_cons, if_neg hp] at h
      simp at h
      rw [← h]
      exact Bool.not_eq_true _ ▸ (by simpa using hp)

theorem dropWhile_eq_self (p : Char → Bool) (l : List Char)
    (h : ∀ x, l.head? = some x → p x = false) : l.dropWhile p = l := by
  cases l with
  | nil => rfl
  | cons a l =>
    have := h a rfl
    simp [List.dropWhile_cons, this]

theorem dropWhile_suffix' (p : Char → Bool) (l : List Char) :
    ∃ t, l = t ++ l.dropWhile p := by
  induction l with
  | nil => exact ⟨[], rfl⟩
  | cons a l ih =>
    by_cases hp : p a
    · obtain ⟨t, ht⟩ := ih
      exact ⟨a :: t, by rw [List.dropWhile_cons, if_pos hp]; simpa using ht⟩
    · exact ⟨[], by rw [List.dropWhile_cons, if_neg hp]; rfl⟩

theorem trimChars_idem (l : List Char) :
    trimChars (trimChars l) = trimChars l := by
  unfold trimChars
  set A := l.dropWhile wsB with hA
  set B := A.reverse.dropWhile wsB with hB
  have h1 : B.reverse.dropWhile wsB = B.reverse := by
    apply dropWhile_eq_self
    intro x hx
    obtain ⟨t, ht⟩ := dropWhile_suffix' wsB A.reverse
    cases hBr : B.reverse with
    | nil => rw [hBr] at hx; simp at hx
    | cons y ys =>
      rw [hBr] at hx
      simp at hx
      have hA2 : A = B.reverse ++ t.reverse := by
        have := congrArg List.reverse ht
        simpa [List.reverse_append] using this
      have hhead : A.head? = some y := by rw [hA2, hBr]; rfl
      have := head_dropWhile_false wsB l y (by rw [← hA]; exact hhead)
      rw [← hx]
      exact this
  have h2 : B.dropWhile wsB = B := by
    apply dropWhile_eq_self
    intro x hx
    exact head_dropWhile_false wsB A.reverse x (by rw [← hB]; exact hx)
  rw [h1, List.reverse_reverse, h2]

theorem jsTrim_idem (s : String) : jsTrim (jsTrim s) = jsTrim s := by
  unfold jsTrim
  rw [show (String.mk (trimChars s.data)).data = trimChars s.data from rfl,
    trimChars_idem]

/-! Helper lemmas about the string comparison order. -/

theorem charLtB_trans {a b c : Char} (h1 : charLtB a b = true)
    (h2 : charLtB b c = true) : charLtB a c = true := by
  simp [charLtB] at h1 h2 ⊢
  omega

theorem charLtB_asymm {a b : Char} (h : charLtB a b = true) :
    charLtB b a = false := by
  simp [charLtB] at h ⊢
  omega

theorem char_eq_of_not_lt {a b : Char} (h1 : charLtB a b = false)
    (h2 : charLtB b a = false) : a = b := by
  simp [charLtB] at h1 h2
  have hn : a.toNat = b.toNat := by omega
  have := congrArg Char.ofNat hn
  rwa [Char.ofNat_toNat, Char.ofNat_toNat] at this

theorem strLtB_irrefl : ∀ (l : List Char), strLtB l l = false := by
  intro l
  induction l with
  | nil => rfl
  | cons a as ih => rw [strLtB, if_pos rfl]; exact ih

theorem strLtB_trans : ∀ (x y z : List Char), strLtB x y = true →
    strLtB y z = true → strLtB x z = true := by
  intro x
  induction x with
  | nil =>
    intro y z h1 h2
    cases y <;> cases z <;> simp_all [strLtB]
  | cons a as ih =>
    intro y z h1 h2
    cases y with
    | nil => simp [strLtB] at h1
    | cons b ys =>
      cases z with
      | nil => simp [strLtB] at h2
      | cons c zs =>
        rw [strLtB] at h1 h2 ⊢
        by_cases hab : a = b
        · subst hab
          rw [if_pos rfl] at h1
          by_cases hac : a = c
          · subst hac
            rw [if_pos rfl] at h2 ⊢
            exact ih ys zs h1 h2
          · rw [if_neg hac] at h2 ⊢
            exact h2
        · rw [if_neg hab] at h1
          by_cases hbc : b = c
          · subst hbc
            rw [if_neg hab]
            exact h1
          · rw [if_neg hbc] at h2
            by_cases hac : a = c
            · subst hac
              have := charLtB_trans h1 h2
              have h3 := charLtB_asymm this
              rw [this] at h3
              cases h3
            · rw [if_neg hac]
              exact charLtB_trans h1 h2

theorem strLtB_asymm : ∀ (x y : List Char), strLtB x y = true →
    strLtB y x = false := by
  intro x
  induction x with
  | nil =>
    intro y h
    cases y <;> simp_all [strLtB]
  | cons a as ih =>
    intro y h
    cases y with
    | nil => simp [strLtB] at h
    | cons b ys =>
      rw [strLtB] at h ⊢
      by_cases hab : a = b
      · subst hab
        rw [if_pos rfl] at h ⊢
        exact ih ys h
      · rw [if_neg hab] at h
        rw [if_neg (Ne.symm hab)]
        exact charLtB_asymm h

theorem strLtB_connex : ∀ (x y : List Char), strLtB x y = false →
    strLtB y x = false → x = y := by
  intro x
  induction x with
  | nil =>
    intro y h1 h2
    cases y with
    | nil => rfl
    | cons b ys => simp [strLtB] at h1
  | cons a as ih =>
    intro y h1 h2
    cases y with
    | nil => simp [strLtB] at h2
    | cons b ys =>
      rw [strLtB] at h1 h2
      by_cases hab : a = b
      · subst hab
        rw [if_pos rfl] at h1 h2
        rw [ih ys h1 h2]
      · rw [if_neg hab] at h1
        rw [if_neg (Ne.symm hab)] at h2
        exact absurd (char_eq_of_not_lt h1 h2) hab

theorem strLeB_refl (a : String) : strLeB a a = true := by
  unfold strLeB
  simp [strLtB_irrefl]

theorem strLeB_total (a b : String) : strLeB a b = true ∨ strLeB b a = true := by
  unfold strLeB
  cases h : strLtB b.data a.data with
  | false => exact Or.inl (by simp)
  | true => exact Or.inr (by simp [strLtB_asymm _ _ h])

theorem strLeB_trans {a b c : String} (h1 : strLeB a b = true)
    (h2 : strLeB b c = true) : strLeB a c = true := by
  unfold strLeB at h1 h2 ⊢
  rw [Bool.not_eq_true'] at h1 h2 ⊢
  cases h : strLtB c.data a.data with
  | false => rfl
  | true =>
    cases hyz : strLtB b.data c.data with
    | true =>
      have := strLtB_trans _ _ _ hyz h
      rw [this] at h1
      cases h1
    | false =>
      have hbc := strLtB_connex _ _ hyz h2
      rw [hbc] at h1
      rw [h] at h1
      cases h1

theorem mem_insertSorted {a x : String} :
    ∀ {l}, x ∈ insertSorted a l → x = a ∨ x ∈ l := by
  intro l
  induction l with
  | nil =>
    intro h
    rw [insertSorted] at h
    simp at h
    exact Or.inl h
  | cons b bs ih =>
    intro h
    rw [insertSorted] at h
    by_cases hc : strLeB a b = true
    · rw [if_pos hc] at h
      rcases List.mem_cons.mp h with h1 | h2
      · exact Or.inl h1
      · exact Or.inr h2
    · rw [if_neg hc] at h
      rcases List.mem_cons.mp h with h1 | h2
      · exact Or.inr (by simp [h1])
      · rcases ih h2 with h3 | h4
        · exact Or.inl h3
        · exact Or.inr (List.mem_cons_of_mem _ h4)

theorem sorted_insertSorted {a : String} :
    ∀ {l}, StrSorted l → StrSorted (insertSorted a l) := by
  intro l
  induction l with
  | nil =>
    intro _
    rw [insertSorted]
    exact List.pairwise_singleton _ _
  | cons b bs ih =>
    intro h
    rw [StrSorted, List.pairwise_cons] at h
    obtain ⟨hb, hbs⟩ := h
    rw [insertSorted]
    by_cases hc : strLeB a b = true
    · rw [if_pos hc]
      refine List.pairwise_cons.mpr ⟨?_, List.pairwise_cons.mpr ⟨hb, hbs⟩⟩
      intro x hx
      rcases List.mem_cons.mp hx with rfl | hx2
      · exact hc
      · exact strLeB_trans hc (hb x hx2)
    · rw [if_neg hc]
      have hba : strLeB b a = true := (strLeB_total a b).resolve_left hc
      refine List.pairwise_cons.mpr ⟨?_, ih hbs⟩
      intro x hx
      rcases mem_insertSorted hx with rfl | hx2
      · exact hba
      · exact hb x hx2

theorem sorted_sortStrings : ∀ (l : List String), StrSorted (sortStrings l) := by
  intro l
  induction l with
  | nil => exact List.Pairwise.nil
  | cons a as ih =>
    rw [sortStrings]
    exact sorted_insertSorted ih

/-! Helper lemmas about the dedup loop of the log-file source. -/

theorem emitNew_spec : ∀ (seen : List String) (ms : List Message),
    (∀ x ∈ seen, x ∈ (emitNew seen ms).1) ∧
    ((emitNew seen ms).2.map Message.id).Nodup ∧
    (∀ i ∈ (emitNew seen ms).2.map Message.id,
      i ∉ seen ∧ i ∈ (emitNew seen ms).1) := by
  intro seen ms
  induction ms generalizing seen with
  | nil => simp [emitNew]
  | cons m ms ih =>
    by_cases h : m.id ∈ seen
    · rw [emitNew, if_pos h]
      exact ih seen
    · obtain ⟨h1, h2, h3⟩ := ih (m.id :: seen)
      rw [emitNew, if_neg h]
      refine ⟨?_, ?_, ?_⟩
      · intro x hx
        exact h1 x (List.mem_cons_of_mem _ hx)
      · simp only [List.map_cons, List.nodup_cons]
        refine ⟨?_, h2⟩
        intro hmem
        exact (h3 _ hmem).1 (List.mem_cons_self _ _)
      · intro i hi
        simp only [List.map_cons, List.mem_cons] at hi
        rcases hi with rfl | hi
        · exact ⟨h, h1 _ (List.mem_cons_self _ _)⟩
        · obtain ⟨hni, hin⟩ := h3 i hi
          exact ⟨fun hmem => hni (List.mem_cons_of_mem _ hmem), hin⟩

theorem emitNew_sublist : ∀ (seen : List String) (ms : List Message),
    List.Sublist (emitNew seen ms).2 ms := by
  intro seen ms
  induction ms generalizing seen with
  | nil => simp [emitNew]
  | cons m ms ih =>
    by_cases h : m.id ∈ seen
    · rw [emitNew, if_pos h]
      exact (ih seen).cons m
    · rw [emitNew, if_neg h]
      exact (ih (m.id :: seen)).cons₂ m

theorem emitNew_mem {seen : List String} {ms : List Message} {m : Message}
    (h : m ∈ (emitNew seen ms).2) : m ∈ ms :=
  (emitNew_sublist seen ms).subset h

theorem processFile_spec (parse : List Char → Option JsonRecord)
    (fsys : String → Option (List Char)) (fail : Option Nat)
    (project : String) (st : WatchState) (f : String) :
    (∀ e ∈ (processFile parse fsys fail project st f).2,
        e.filePath = f ∧ e.project = project ∧
          e.message ∈ (emitNew (st.seenResponses f)
            (match st.filePositions f, fsys f with
              | some lastPos, some c => extractAllMessagesF parse c lastPos fail
              | _, _ => [])).2) ∧
    (∀ q x, x ∈ st.seenResponses q →
        x ∈ (processFile parse fsys fail project st f).1.seenResponses q) ∧
    (((processFile parse fsys fail project st f).2.map
        fun e => e.message.id).Nodup) ∧
    (∀ i ∈ (processFile parse fsys fail project st f).2.map
        fun e => e.message.id,
      i ∉ st.seenResponses f ∧
        i ∈ (processFile parse fsys fail project st f).1.seenResponses f) := by
  rcases hpos : st.filePositions f with _ | lastPos
  · rcases hfs : fsys f with _ | c
    · unfold processFile
      rw [hpos, hfs]
      simp
    · unfold processFile
      rw [hpos, hfs]
      simp
  · rcases hfs : fsys f with _ | c
    · unfold processFile
      rw [hpos, hfs]
      obtain ⟨h1, h2, h3⟩ := emitNew_spec (st.seenResponses f) []
      refine ⟨?_, ?_, ?_, ?_⟩
      · intro e he
        simp only [List.mem_map] at he
        obtain ⟨m, hm, rfl⟩ := he
        exact ⟨rfl, rfl, hm⟩
      · intro q x hx
        simp only
        by_cases hq : q = f
        · subst hq
          simp only [if_pos rfl]
          exact h1 x hx
        · simp only [if_neg hq]
          exact hx
      · simp only [List.map_map]
        exact h2
      · intro i hi
        simp only [List.map_map] at hi
        obtain ⟨hni, hin⟩ := h3 i hi
        refine ⟨hni, ?_⟩
        simp only [if_pos rfl]
        exact hin
    · unfold processFile
      rw [hpos, hfs]
      obtain ⟨h1, h2, h3⟩ :=
        emitNew_spec (st.seenResponses f) (extractAllMessagesF parse c lastPos fail)
      refine ⟨?_, ?_, ?_, ?_⟩
      · intro e he
        simp only [List.mem_map] at he
        obtain ⟨m, hm, rfl⟩ := he
        exact ⟨rfl, rfl, hm⟩
      · intro q x hx
        simp only
        by_cases hq : q = f
        · subst hq
          simp only [if_pos rfl]
          exact h1 x hx
        · simp only [if_neg hq]
          exact hx
      · simp only [List.map_map]
        exact h2
      · intro i hi
        simp only [List.map_map] at hi
        obtain ⟨hni, hin⟩ := h3 i hi
        refine ⟨hni, ?_⟩
        simp only [if_pos rfl]
        exact hin

theorem logIds_append (p : String) (l1 l2 : List LogEmission) :
    logIds p (l1 ++ l2) = logIds p l1 ++ logIds p l2 := by
  simp [logIds, List.filter_append]

theorem logIds_all {p : String} {l : List LogEmission}
    (h : ∀ e ∈ l, e.filePath = p) :
    logIds p l = l.map fun e => e.message.id := by
  unfold logIds
  congr 1
  apply List.filter_eq_self.mpr
  intro e he
  simp [h e he]

theorem logIds_none {p : String} {l : List LogEmission}
    (h : ∀ e ∈ l, e.filePath ≠ p) : logIds p l = [] := by
  unfold logIds
  have : l.filter (fun e => e.filePath == p) = [] := by
    induction l with
    | nil => rfl
    | cons e l ih =>
      rw [List.filter_cons, if_neg (by simpa using h e (List.mem_cons_self _ _))]
      exact ih fun e' he' => h e' (List.mem_cons_of_mem _ he')
  rw [this]
  rfl

theorem LInv_empty (st : WatchState) : LInv st [] := by
  intro p
  simp [logIds]

theorem LInv_step {parse : List Char → Option JsonRecord}
    {fsys : String → Option (List Char)} {fail : Option Nat}
    {project : String} {st : WatchState} {f : String}
    {acc : List LogEmission} (h : LInv st acc) :
    LInv (processFile parse fsys fail project st f).1
      (acc ++ (processFile parse fsys fail project st f).2) := by
  obtain ⟨hpa, hmono, hnd, hfresh⟩ := processFile_spec parse fsys fail project st f
  intro p
  rw [logIds_append]
  obtain ⟨hand, hain⟩ := h p
  by_cases hpf : p = f
  · subst hpf
    have hids : logIds p (processFile parse fsys fail project st p).2 =
        (processFile parse fsys fail project st p).2.map fun e => e.message.id :=
      logIds_all fun e he => (hpa e he).1
    constructor
    · rw [hids]
      refine List.Nodup.append hand hnd ?_
      intro i hi1 hi2
      exact (hfresh i hi2).1 (hain i hi1)
    · intro i hi
      rcases List.mem_append.mp hi with hi | hi
      · exact hmono p i (hain i hi)
      · rw [hids] at hi
        exact (hfresh i hi).2
  · have hids : logIds p (processFile parse fsys fail project st f).2 = [] := by
      apply logIds_none
      intro e he hc
      rw [(hpa e he).1] at hc
      exact hpf hc.symm
    rw [hids, List.append_nil]
    exact ⟨hand, fun i hi => hmono p i (hain i hi)⟩

theorem runFiles_LInv (parse : List Char → Option JsonRecord)
    (fsys : String → Option (List Char)) (project : String) :
    ∀ (fl : List String) (st : WatchState) (acc : List LogEmission),
      LInv st acc →
      LInv (runFiles parse fsys project st fl).1
        (acc ++ (runFiles parse fsys project st fl).2) := by
  intro fl
  induction fl with
  | nil =>
    intro st acc h
    simpa [runFiles] using h
  | cons f fl ih =>
    intro st acc h
    simp only [runFiles]
    rw [← List.append_assoc]
    exact ih _ _ (LInv_step h)

theorem runProjects_LInv (parse : List Char → Option JsonRecord)
    (fsys : String → Option (List Char))
    (convFiles : List (String × List String)) :
    ∀ (prs : List String) (st : WatchState) (acc : List LogEmission),
      LInv st acc →
      LInv (runProjects parse fsys convFiles st prs).1
        (acc ++ (runProjects parse fsys convFiles st prs).2) := by
  intro prs
  induction prs with
  | nil =>
    intro st acc h
    simpa [runProjects] using h
  | cons pr prs ih =>
    intro st acc h
    simp only [runProjects]
    rw [← List.append_assoc]
    exact ih _ _ (runFiles_LInv _ _ _ _ _ _ h)

theorem tickLog_LInv {parse : List Char → Option JsonRecord}
    {fsys : String → Option (List Char)}
    {convFiles : List (String × List String)} {st : WatchState}
    {acc : List LogEmission} (h : LInv st acc) :
    LInv (tickLog parse fsys st convFiles).1
      (acc ++ (tickLog parse fsys st convFiles).2) := by
  unfold tickLog
  exact runProjects_LInv _ _ _ _ _ _ h

theorem watchRun_LInv (parse : List Char → Option JsonRecord)
    (filt : Option String) :
    ∀ (sched : List TickInput) (st : WatchState) (acc : List LogEmission),
      LInv st acc →
      LInv (watchRun parse filt st sched).1
        (acc ++ (watchRun parse filt st sched).2) := by
  intro sched
  induction sched with
  | nil =>
    intro st acc h
    simpa [watchRun] using h
  | cons t ts ih =>
    intro st acc h
    simp only [watchRun]
    rw [← List.append_assoc]
    exact ih _ _ (tickLog_LInv h)

theorem watchConversations_LInv (parse : List Char → Option JsonRecord)
    (filt : Option String) (sched : List TickInput) :
    LInv (watchConversations parse filt sched).1
      (watchConversations parse filt sched).2 := by
  have := watchRun_LInv parse filt sched initState [] (LInv_empty _)
  simpa [watchConversations] using this

/-! Counting lemmas relating distinct identifier lists to filter lengths. -/

theorem filter_pair_nil (p i : String) : ∀ (L : List LogEmission),
    i ∉ logIds p L →
    L.filter (fun e => e.filePath == p && e.message.id == i) = [] := by
  intro L
  induction L with
  | nil => intro _; rfl
  | cons e L ih =>
    intro h
    rw [List.filter_cons]
    by_cases hc : (e.filePath == p && e.message.id == i) = true
    · exfalso
      apply h
      simp only [Bool.and_eq_true, beq_iff_eq] at hc
      unfold logIds
      rw [List.filter_cons, if_pos (by simp [hc.1])]
      simp [hc.2]
    · rw [if_neg hc]
      apply ih
      intro hmem
      apply h
      unfold logIds at hmem ⊢
      rw [List.filter_cons]
      by_cases hp : (e.filePath == p) = true
      · rw [if_pos hp]
        exact List.mem_cons_of_mem _ hmem
      · rw [if_neg hp]
        exact hmem

theorem length_filter_pair (p i : String) : ∀ (L : List LogEmission),
    (logIds p L).Nodup →
    (L.filter fun e => e.filePath == p && e.message.id == i).length ≤ 1 := by
  intro L
  induction L with
  | nil => intro _; simp
  | cons e L ih =>
    intro h
    rw [List.filter_cons]
    by_cases hc : (e.filePath == p && e.message.id == i) = true
    · rw [if_pos hc]
      simp only [Bool.and_eq_true, beq_iff_eq] at hc
      have hp : (e.filePath == p) = true := by simp [hc.1]
      have hlog : logIds p (e :: L) = e.message.id :: logIds p L := by
        unfold logIds
        rw [List.filter_cons, if_pos hp]
        rfl
      rw [hlog, List.nodup_cons] at h
      have hni : i ∉ logIds p L := hc.2 ▸ h.1
      rw [filter_pair_nil p i L hni]
      simp
    · rw [if_neg hc]
      apply ih
      unfold logIds at h ⊢
      rw [List.filter_cons] at h
      by_cases hp : (e.filePath == p) = true
      · rw [if_pos hp, List.map_cons, List.nodup_cons] at h
        exact h.2
      · rw [if_neg hp] at h
        exact h

theorem cfilter_nil (b : String) : ∀ (L : List CEmission),
    b ∉ L.map CEmission.bubbleId →
    L.filter (fun e => e.bubbleId == b) = [] := by
  intro L
  induction L with
  | nil => intro _; rfl
  | cons e L ih =>
    intro h
    rw [List.filter_cons]
    simp only [List.map_cons, List.mem_cons] at h
    push_neg at h
    rw [if_neg (by simpa using fun hc => h.1 hc.symm)]
    exact ih h.2

theorem clength_le_one (b : String) : ∀ (L : List CEmission),
    (L.map CEmission.bubbleId).Nodup →
    (L.filter fun e => e.bubbleId == b).length ≤ 1 := by
  intro L
  induction L with
  | nil => intro _; simp
  | cons e L ih =>
    intro h
    rw [List.map_cons, List.nodup_cons] at h
    rw [List.filter_cons]
    by_cases hc : (e.bubbleId == b) = true
    · rw [if_pos hc]
      rw [beq_iff_eq] at hc
      rw [cfilter_nil b L (hc ▸ h.1)]
      simp
    · rw [if_neg hc]
      exact ih h.2

theorem length_filter_mono {α : Type} (p q : α → Bool)
    (h : ∀ a, p a = true → q a = true) : ∀ (L : List α),
    (L.filter p).length ≤ (L.filter q).length := by
  intro L
  induction L with
  | nil => simp
  | cons a L ih =>
    rw [List.filter_cons, List.filter_cons]
    by_cases hp : p a = true
    · rw [if_pos hp, if_pos (h a hp)]
      simpa using ih
    · rw [if_neg hp]
      by_cases hq : q a = true
      · rw [if_pos hq]
        exact le_trans ih (by simp)
      · rw [if_neg hq]
        exact ih

/-! Helper lemmas about the dedup loop of the key-value source. -/

theorem processHeaders_spec (fetch : String → Option String) (cn : String) :
    ∀ (hs : List Header) (seen : List String),
    (∀ x ∈ seen, x ∈ (processHeaders fetch cn seen hs).1) ∧
    ((processHeaders fetch cn seen hs).2.map CEmission.bubbleId).Nodup ∧
    (∀ i ∈ (processHeaders fetch cn seen hs).2.map CEmission.bubbleId,
      i ∉ seen ∧ i ∈ (processHeaders fetch cn seen hs).1) ∧
    (∀ e ∈ (processHeaders fetch cn seen hs).2, e.convName = cn) ∧
    (∀ b ∈ hs.map Header.bubbleId, b ∈ (processHeaders fetch cn seen hs).1) := by
  intro hs
  induction hs with
  | nil =>
    intro seen
    simp [processHeaders]
  | cons h hs ih =>
    intro seen
    by_cases hmem : h.bubbleId ∈ seen
    · simp only [processHeaders, if_pos hmem]
      obtain ⟨h1, h2, h3, h4, h5⟩ := ih seen
      refine ⟨h1, h2, h3, h4, ?_⟩
      intro b hb
      simp only [List.map_cons, List.mem_cons] at hb
      rcases hb with rfl | hb
      · exact h1 _ hmem
      · exact h5 b hb
    · obtain ⟨h1, h2, h3, h4, h5⟩ := ih (h.bubbleId :: seen)
      have hmono : ∀ x ∈ seen,
          x ∈ (processHeaders fetch cn (h.bubbleId :: seen) hs).1 :=
        fun x hx => h1 x (List.mem_cons_of_mem _ hx)
      have hown :
          h.bubbleId ∈ (processHeaders fetch cn (h.bubbleId :: seen) hs).1 :=
        h1 _ (List.mem_cons_self _ _)
      have hrest : ∀ i ∈ (processHeaders fetch cn (h.bubbleId :: seen) hs).2.map
          CEmission.bubbleId,
          i ∉ seen ∧ i ∈ (processHeaders fetch cn (h.bubbleId :: seen) hs).1 :=
        fun i hi => ⟨fun hmem' => (h3 i hi).1 (List.mem_cons_of_mem _ hmem'),
          (h3 i hi).2⟩
      have hhead : ∀ b ∈ (h :: hs).map Header.bubbleId,
          b ∈ (processHeaders fetch cn (h.bubbleId :: seen) hs).1 := by
        intro b hb
        simp only [List.map_cons, List.mem_cons] at hb
        rcases hb with rfl | hb
        · exact hown
        · exact h5 b hb
      rcases hf : fetch h.bubbleId with _ | t
      · simp only [processHeaders, if_neg hmem, hf, List.nil_append]
        exact ⟨hmono, h2, hrest, h4, hhead⟩
      · by_cases ht : jsTrim t ≠ ""
        · simp only [processHeaders, if_neg hmem, hf, if_pos ht,
            List.cons_append, List.nil_append]
          refine ⟨hmono, ?_, ?_, ?_, hhead⟩
          · rw [List.map_cons, List.nodup_cons]
            exact ⟨fun hc => (h3 _ hc).1 (List.mem_cons_self _ _), h2⟩
          · intro i hi
            simp only [List.map_cons, List.mem_cons] at hi
            rcases hi with rfl | hi
            · exact ⟨hmem, hown⟩
            · exact hrest i hi
          · intro e he
            rcases List.mem_cons.mp he with rfl | he
            · rfl
            · exact h4 e he
        · simp only [processHeaders, if_neg hmem, hf, if_neg ht, List.nil_append]
          exact ⟨hmono, h2, hrest, h4, hhead⟩

theorem processConversations_spec (fetch : String → Option String)
    (filt : Option String) :
    ∀ (cs : List Conversation) (seen : List String),
    (∀ x ∈ seen, x ∈ (processConversations fetch filt seen cs).1) ∧
    ((processConversations fetch filt seen cs).2.map CEmission.bubbleId).Nodup ∧
    (∀ i ∈ (processConversations fetch filt seen cs).2.map CEmission.bubbleId,
      i ∉ seen ∧ i ∈ (processConversations fetch filt seen cs).1) := by
  intro cs
  induction cs with
  | nil =>
    intro seen
    simp [processConversations]
  | cons c cs ih =>
    intro seen
    by_cases hk : keepConv filt c.cname = true
    · simp only [processConversations, if_pos hk]
      obtain ⟨p1, p2, p3, _, _⟩ := processHeaders_spec fetch c.cname c.headers seen
      obtain ⟨q1, q2, q3⟩ :=
        ih (processHeaders fetch c.cname seen c.headers).1
      refine ⟨fun x hx => q1 x (p1 x hx), ?_, ?_⟩
      · rw [List.map_append]
        refine List.Nodup.append p2 q2 ?_
        intro i hi1 hi2
        exact (q3 i hi2).1 (p3 i hi1).2
      · intro i hi
        rw [List.map_append] at hi
        rcases List.mem_append.mp hi with hi | hi
        · exact ⟨(p3 i hi).1, q1 i (p3 i hi).2⟩
        · exact ⟨fun hmem => (q3 i hi).1 (p1 i hmem), (q3 i hi).2⟩
    · simp only [processConversations, if_neg hk]
      exact ih seen

theorem processConversations_first_attr (fetch : String → Option String)
    (rest : List Conversation) (c1 : Conversation) (seen : List String)
    (b : String) (e : CEmission) (_hbs : b ∉ seen)
    (hbc : b ∈ c1.headers.map Header.bubbleId)
    (hmem : e ∈ (processConversations fetch none seen (c1 :: rest)).2)
    (hbe : e.bubbleId = b) : e.convName = c1.cname := by
  have hk : keepConv none c1.cname = true := rfl
  simp only [processConversations, if_pos hk] at hmem
  rcases List.mem_append.mp hmem with h1 | h2
  · exact (processHeaders_spec fetch c1.cname c1.headers seen).2.2.2.1 e h1
  · exfalso
    have hb1 : b ∈ (processHeaders fetch c1.cname seen c1.headers).1 :=
      (processHeaders_spec fetch c1.cname c1.headers seen).2.2.2.2 b hbc
    have hni := ((processConversations_spec fetch none rest
        (processHeaders fetch c1.cname seen c1.headers).1).2.2 e.bubbleId
      (List.mem_map_of_mem _ h2)).1
    rw [hbe] at hni
    exact hni hb1

theorem CInv_step {fetch : String → Option String} {filt : Option String}
    {cs : List Conversation} {seen : List String} {acc : List CEmission}
    (h : CInv seen acc) :
    CInv (processConversations fetch filt seen cs).1
      (acc ++ (processConversations fetch filt seen cs).2) := by
  obtain ⟨hmono, hnd, hfresh⟩ := processConversations_spec fetch filt cs seen
  obtain ⟨hand, hain⟩ := h
  constructor
  · rw [List.map_append]
    exact List.Nodup.append hand hnd
      fun i hi1 hi2 => (hfresh i hi2).1 (hain i hi1)
  · intro i hi
    rw [List.map_append] at hi
    rcases List.mem_append.mp hi with hi | hi
    · exact hmono i (hain i hi)
    · exact (hfresh i hi).2

theorem cursorRun_CInv (filt : Option String) :
    ∀ (sched : List CursorTick) (seen : List String) (acc : List CEmission),
      CInv seen acc →
      CInv (cursorRun filt seen sched).1
        (acc ++ (cursorRun filt seen sched).2) := by
  intro sched
  induction sched with
  | nil =>
    intro seen acc h
    simpa [cursorRun] using h
  | cons t ts ih =>
    intro seen acc h
    simp only [cursorRun]
    rw [← List.append_assoc]
    exact ih _ _ (CInv_step h)

theorem watchCursorConversations_CInv (filt : Option String)
    (sched : List CursorTick) :
    CInv (watchCursorConversations filt sched).1
      (watchCursorConversations filt sched).2 := by
  have := cursorRun_CInv filt sched [] [] ⟨List.Pairwise.nil, by simp⟩
  simpa [watchCursorConversations] using this

/-! Every emitted log-source message text is non-empty and already
trimmed. -/

theorem userItemMsg_good {data : JsonRecord} {item : ContentItem} {m : Message}
    (h : userItemMsg data item = some m) : GoodMsg m := by
  simp only [userItemMsg] at h
  by_cases h1 : item.itemType = "text"
  · rw [if_pos h1] at h
    by_cases h2 : (item.text.map jsTrim).getD "" ≠ "" ∧
        jsStartsWith ((item.text.map jsTrim).getD "") "<" = false ∧
        jsStartsWith ((item.text.map jsTrim).getD "") "This may or may not" = false
    · rw [if_pos h2] at h
      injection h with h
      subst h
      refine ⟨h2.1, ?_⟩
      rcases ht : item.text with _ | s
      · rw [ht] at h2
        simp at h2
      · simpa using jsTrim_idem s
    · rw [if_neg h2] at h
      cases h
  · rw [if_neg h1] at h
    cases h

theorem assistantItemMsg_good {data : JsonRecord} {item : ContentItem}
    {m : Message} (h : assistantItemMsg data item = some m) : GoodMsg m := by
  simp only [assistantItemMsg] at h
  by_cases h1 : item.itemType = "text"
  · rw [if_pos h1] at h
    by_cases h2 : (item.text.map jsTrim).getD "" ≠ ""
    · rw [if_pos h2] at h
      injection h with h
      subst h
      refine ⟨h2, ?_⟩
      rcases ht : item.text with _ | s
      · rw [ht] at h2
        simp at h2
      · simpa using jsTrim_idem s
    · rw [if_neg h2] at h
      cases h
  · rw [if_neg h1] at h
    cases h

theorem processRecord_good {data : JsonRecord} {m : Message}
    (h : m ∈ processRecord data) : GoodMsg m := by
  simp only [processRecord] at h
  split at h
  · exact absurd h (List.not_mem_nil m)
  · split at h
    · split at h
      · rw [List.mem_filterMap] at h
        obtain ⟨item, _, heq⟩ := h
        exact userItemMsg_good heq
      · exact absurd h (List.not_mem_nil m)
    · split at h
      · split at h
        · rw [List.mem_filterMap] at h
          obtain ⟨item, _, heq⟩ := h
          exact assistantItemMsg_good heq
        · exact absurd h (List.not_mem_nil m)
      · exact absurd h (List.not_mem_nil m)

theorem processLine_good {parse : List Char → Option JsonRecord}
    {l : List Char} {m : Message} (h : m ∈ processLine parse l) : GoodMsg m := by
  unfold processLine at h
  rcases hp : parse l with _ | data
  · rw [hp] at h
    exact absurd h (List.not_mem_nil m)
  · rw [hp] at h
    exact processRecord_good h

theorem extractAllMessagesF_good {parse : List Char → Option JsonRecord}
    {content : List Char} {lastPos : Nat} {fail : Option Nat} {m : Message}
    (h : m ∈ extractAllMessagesF parse content lastPos fail) : GoodMsg m := by
  simp only [extractAllMessagesF] at h
  rw [List.mem_flatten] at h
  obtain ⟨l', hl', hm⟩ := h
  rw [List.mem_map] at hl'
  obtain ⟨l, _, rfl⟩ := hl'
  exact processLine_good hm

theorem processFile_good {parse : List Char → Option JsonRecord}
    {fsys : String → Option (List Char)} {fail : Option Nat} {project : String}
    {st : WatchState} {f : String} {e : LogEmission}
    (h : e ∈ (processFile parse fsys fail project st f).2) :
    GoodMsg e.message := by
  obtain ⟨hpa, _, _, _⟩ := processFile_spec parse fsys fail project st f
  have hm2 := emitNew_mem (hpa e h).2.2
  rcases hpos : st.filePositions f with _ | lp
  · rw [hpos] at hm2
    exact absurd hm2 (List.not_mem_nil _)
  · rcases hfs : fsys f with _ | c
    · rw [hpos, hfs] at hm2
      exact absurd hm2 (List.not_mem_nil _)
    · rw [hpos, hfs] at hm2
      exact extractAllMessagesF_good hm2

theorem runFiles_good (parse : List Char → Option JsonRecord)
    (fsys : String → Option (List Char)) (project : String) :
    ∀ (fl : List String) (st : WatchState) (e : LogEmission),
      e ∈ (runFiles parse fsys project st fl).2 → GoodMsg e.message := by
  intro fl
  induction fl with
  | nil =>
    intro st e h
    simp [runFiles] at h
  | cons f fl ih =>
    intro st e h
    simp only [runFiles] at h
    rcases List.mem_append.mp h with h | h
    · exact processFile_good h
    · exact ih _ e h

theorem runProjects_good (parse : List Char → Option JsonRecord)
    (fsys : String → Option (List Char))
    (convFiles : List (String × List String)) :
    ∀ (prs : List String) (st : WatchState) (e : LogEmission),
      e ∈ (runProjects parse fsys convFiles st prs).2 → GoodMsg e.message := by
  intro prs
  induction prs with
  | nil =>
    intro st e h
    simp [runProjects] at h
  | cons pr prs ih =>
    intro st e h
    simp only [runProjects] at h
    rcases List.mem_append.mp h with h | h
    · exact runFiles_good _ _ _ _ _ e h
    · exact ih _ e h

theorem watchRun_good (parse : List Char → Option JsonRecord)
    (filt : Option String) :
    ∀ (sched : List TickInput) (st : WatchState) (e : LogEmission),
      e ∈ (watchRun parse filt st sched).2 → GoodMsg e.message := by
  intro sched
  induction sched with
  | nil =>
    intro st e h
    simp [watchRun] at h
  | cons t ts ih =>
    intro st e h
    simp only [watchRun] at h
    rcases List.mem_append.mp h with h | h
    · exact runProjects_good _ _ _ _ _ e h
    · exact ih _ e h

/-! Every emitted key-value-source text has a non-blank trim. -/

theorem processHeaders_text (fetch : String → Option String) (cn : String) :
    ∀ (hs : List Header) (seen : List String) (e : CEmission),
      e ∈ (processHeaders fetch cn seen hs).2 → jsTrim e.text ≠ "" := by
  intro hs
  induction hs with
  | nil =>
    intro seen e h
    simp [processHeaders] at h
  | cons h hs ih =>
    intro seen e hmem2
    by_cases hmem : h.bubbleId ∈ seen
    · simp only [processHeaders, if_pos hmem] at hmem2
      exact ih seen e hmem2
    · rcases hf : fetch h.bubbleId with _ | t
      · simp only [processHeaders, if_neg hmem, hf, List.nil_append] at hmem2
        exact ih _ e hmem2
      · by_cases ht : jsTrim t ≠ ""
        · simp only [processHeaders, if_neg hmem, hf, if_pos ht,
            List.cons_append, List.nil_append] at hmem2
          rcases List.mem_cons.mp hmem2 with rfl | hmem2
          · exact ht
          · exact ih _ e hmem2
        · simp only [processHeaders, if_neg hmem, hf, if_neg ht,
            List.nil_append] at hmem2
          exact ih _ e hmem2

theorem processConversations_text (fetch : String → Option String)
    (filt : Option String) :
    ∀ (cs : List Conversation) (seen : List String) (e : CEmission),
      e ∈ (processConversations fetch filt seen cs).2 → jsTrim e.text ≠ "" := by
  intro cs
  induction cs with
  | nil =>
    intro seen e h
    simp [processConversations] at h
  | cons c cs ih =>
    intro seen e h
    by_cases hk : keepConv filt c.cname = true
    · simp only [processConversations, if_pos hk] at h
      rcases List.mem_append.mp h with h | h
      · exact processHeaders_text fetch c.cname c.headers seen e h
      · exact ih _ e h
    · simp only [processConversations, if_neg hk] at h
      exact ih _ e h

theorem cursorRun_text (filt : Option String) :
    ∀ (sched : List CursorTick) (seen : List String) (e : CEmission),
      e ∈ (cursorRun filt seen sched).2 → jsTrim e.text ≠ "" := by
  intro sched
  induction sched with
  | nil =>
    intro seen e h
    simp [cursorRun] at h
  | cons t ts ih =>
    intro seen e h
    simp only [cursorRun] at h
    rcases List.mem_append.mp h with h | h
    · exact processConversations_text _ _ _ _ e h
    · exact ih _ e h

/-! Ordering of a log-source tick: emissions are grouped by sorted project
label, and per unit they form a subsequence of the adapter's batch. -/

theorem runFiles_project (parse : List Char → Option JsonRecord)
    (fsys : String → Option (List Char)) (project : String) :
    ∀ (fl : List String) (st : WatchState) (e : LogEmission),
      e ∈ (runFiles parse fsys project st fl).2 → e.project = project := by
  intro fl
  induction fl with
  | nil =>
    intro st e h
    simp [runFiles] at h
  | cons f fl ih =>
    intro st e h
    simp only [runFiles] at h
    rcases List.mem_append.mp h with h | h
    · exact ((processFile_spec parse fsys none project st f).1 e h).2.1
    · exact ih _ e h

theorem runProjects_label_mem (parse : List Char → Option JsonRecord)
    (fsys : String → Option (List Char))
    (convFiles : List (String × List String)) :
    ∀ (prs : List String) (st : WatchState) (e : LogEmission),
      e ∈ (runProjects parse fsys convFiles st prs).2 → e.project ∈ prs := by
  intro prs
  induction prs with
  | nil =>
    intro st e h
    simp [runProjects] at h
  | cons pr prs ih =>
    intro st e h
    simp only [runProjects] at h
    rcases List.mem_append.mp h with h | h
    · rw [runFiles_project parse fsys pr _ _ e h]
      exact List.mem_cons_self _ _
    · exact List.mem_cons_of_mem _ (ih _ e h)

theorem strSorted_append (pr : String) {l1 l2 : List String}
    (h1 : ∀ x ∈ l1, x = pr) (h2 : ∀ y ∈ l2, strLeB pr y = true)
    (hs : StrSorted l2) : StrSorted (l1 ++ l2) := by
  induction l1 with
  | nil => simpa using hs
  | cons a l1 ih =>
    rw [List.cons_append]
    refine List.pairwise_cons.mpr
      ⟨?_, ih fun x hx => h1 x (List.mem_cons_of_mem _ hx)⟩
    intro b hb
    have ha : a = pr := h1 a (List.mem_cons_self _ _)
    rcases List.mem_append.mp hb with hb | hb
    · rw [ha, h1 b (List.mem_cons_of_mem _ hb)]
      exact strLeB_refl pr
    · rw [ha]
      exact h2 b hb

theorem runProjects_sorted (parse : List Char → Option JsonRecord)
    (fsys : String → Option (List Char))
    (convFiles : List (String × List String)) :
    ∀ (prs : List String) (st : WatchState), StrSorted prs →
      StrSorted ((runProjects parse fsys convFiles st prs).2.map
        fun e => e.project) := by
  intro prs
  induction prs with
  | nil =>
    intro st _
    simp only [runProjects]
    exact List.Pairwise.nil
  | cons pr prs ih =>
    intro st h
    rw [StrSorted, List.pairwise_cons] at h
    obtain ⟨hpr, hprs⟩ := h
    simp only [runProjects, List.map_append]
    apply strSorted_append pr
    · intro x hx
      rw [List.mem_map] at hx
      obtain ⟨e, he, rfl⟩ := hx
      exact runFiles_project parse fsys pr _ _ e he
    · intro y hy
      rw [List.mem_map] at hy
      obtain ⟨e, he, rfl⟩ := hy
      exact hpr _ (runProjects_label_mem parse fsys convFiles prs _ e he)
    · exact ih _ hprs

theorem tickLog_sorted (parse : List Char → Option JsonRecord)
    (fsys : String → Option (List Char)) (st : WatchState)
    (convFiles : List (String × List String)) :
    StrSorted ((tickLog parse fsys st convFiles).2.map fun e => e.project) := by
  unfold tickLog
  exact runProjects_sorted parse fsys convFiles _ st (sorted_sortStrings _)

theorem processFile_order {parse : List Char → Option JsonRecord}
    {fsys : String → Option (List Char)} {fail : Option Nat} {project : String}
    {st : WatchState} {f : String} {lastPos : Nat} {c : List Char}
    (hpos : st.filePositions f = some lastPos) (hfs : fsys f = some c) :
    List.Sublist
      ((processFile parse fsys fail project st f).2.map fun e => e.message)
      (extractAllMessagesF parse c lastPos fail) := by
  simp only [processFile, hpos, hfs, List.map_map]
  have hcomp : ((fun (e : LogEmission) => e.message) ∘
      fun m => (⟨project, f, m⟩ : LogEmission)) = id := rfl
  rw [hcomp, List.map_id]
  exact emitNew_sublist _ _

/-! Identifier assignment of the log-source normalizer. -/

theorem userItemMsg_id {data : JsonRecord} {item : ContentItem} {m : Message}
    (h : userItemMsg data item = some m) : m.id = data.uuid.getD "" := by
  simp only [userItemMsg] at h
  split at h
  · split at h
    · injection h with h
      subst h
      rfl
    · cases h
  · cases h

theorem assistantItemMsg_id {data : JsonRecord} {item : ContentItem}
    {m : Message} (h : assistantItemMsg data item = some m) :
    m.id = data.uuid.getD "" := by
  simp only [assistantItemMsg] at h
  split at h
  · split at h
    · injection h with h
      subst h
      rfl
    · cases h
  · cases h

theorem processRecord_id {data : JsonRecord} {m : Message}
    (h : m ∈ processRecord data) : m.id = data.uuid.getD "" := by
  simp only [processRecord] at h
  split at h
  · exact absurd h (List.not_mem_nil m)
  · split at h
    · split at h
      · rw [List.mem_filterMap] at h
        obtain ⟨item, _, heq⟩ := h
        exact userItemMsg_id heq
      · exact absurd h (List.not_mem_nil m)
    · split at h
      · split at h
        · rw [List.mem_filterMap] at h
          obtain ⟨item, _, heq⟩ := h
          exact assistantItemMsg_id heq
        · exact absurd h (List.not_mem_nil m)
      · exact absurd h (List.not_mem_nil m)

/-! A fetch whose lines all fail to parse yields no messages. -/

theorem extract_nil {parse : List Char → Option JsonRecord}
    {content : List Char} {lastPos : Nat}
    (h : ∀ l ∈ rlLines (content.drop lastPos), parse l = none) :
    extractAllMessagesF parse content lastPos none = [] := by
  simp only [extractAllMessagesF]
  apply List.eq_nil_iff_forall_not_mem.mpr
  intro m hm
  rw [List.mem_flatten] at hm
  obtain ⟨l', hl', hm⟩ := hm
  rw [List.mem_map] at hl'
  obtain ⟨l, hl, rfl⟩ := hl'
  simp only [processLine, h l hl] at hm
  exact absurd hm (List.not_mem_nil m)

/-! Claim theorems. -/

/-- C1: At-most-once emission — over every schedule of ticks, the log-file
source never passes the same message identifier to the emitter twice for
the same file, and the key-value source never prints the same bubble id
twice for the same conversation, whatever records the snapshots return. -/
theorem claim1_at_most_once :
    (∀ (parse : List Char → Option JsonRecord) (filt : Option String)
        (sched : List TickInput) (p i : String),
      ((watchConversations parse filt sched).2.filter
        fun e => e.filePath == p && e.message.id == i).length ≤ 1) ∧
    (∀ (filt : Option String) (sched : List CursorTick) (cn b : String),
      ((watchCursorConversations filt sched).2.filter
        fun e => e.convName == cn && e.bubbleId == b).length ≤ 1) := by
  constructor
  · intro parse filt sched p i
    exact length_filter_pair p i _ ((watchConversations_LInv parse filt sched) p).1
  · intro filt sched cn b
    have hnd := (watchCursorConversations_CInv filt sched).1
    have hmono := length_filter_mono
      (fun e : CEmission => e.convName == cn && e.bubbleId == b)
      (fun e : CEmission => e.bubbleId == b)
      (fun e he => (Bool.and_eq_true _ _ |>.mp he).2)
      (watchCursorConversations filt sched).2
    exact le_trans hmono (clength_le_one b _ hnd)

/-- C2 (amended, log-file part): a log file discovered for the first time
emits nothing on that tick and its cursor is initialized to the
pre-existing size. (The key-value source has no first-sight suppression;
see the counterexample.) -/
theorem claim2_log_first_sight (parse : List Char → Option JsonRecord)
    (fsys : String → Option (List Char)) (project : String) (st : WatchState)
    (f : String) (c : List Char) (h1 : st.filePositions f = none)
    (h2 : fsys f = some c) :
    (processFile parse fsys none project st f).2 = [] ∧
    (processFile parse fsys none project st f).1.filePositions f =
      some c.length := by
  simp only [processFile, h1, h2]
  simp

/-- C2 counterexample: a key-value conversation discovered for the first
time with one pre-existing header emits a message on that very tick, so
first-sight suppression fails for the key-value source. -/
theorem claim2_counterexample :
    convC2.headers.length = 1 ∧
    (watchCursorConversations none [⟨fetchC2, [convC2]⟩]).2 ≠ [] := by
  decide

/-- C2 witness: the first-sight theorem evaluated on a concrete two-byte
file. -/
theorem claim2_witness :
    (processFile pNone fsW2 none "p" initState "f").2 = [] ∧
    (processFile pNone fsW2 none "p" initState "f").1.filePositions "f" =
      some ("ab".data).length :=
  claim2_log_first_sight pNone fsW2 "p" initState "f" "ab".data rfl (by decide)

/-- C3 (amended): a trailing partial line is read at end of stream; since it
fails to parse nothing is emitted for it, but the cursor advances past it to
the file size, and when the line is completed on a later tick only the bytes
after the cursor are read, which again fail to parse, so the record is never
emitted. -/
theorem claim3_partial_line_consumed (parse : List Char → Option JsonRecord)
    (fsys1 fsys2 : String → Option (List Char)) (project : String)
    (st : WatchState) (c0 pl rl : List Char) (f : String)
    (hpos : st.filePositions f = some c0.length)
    (hf1 : fsys1 f = some (c0 ++ pl))
    (hp1 : ∀ l ∈ rlLines pl, parse l = none)
    (hf2 : fsys2 f = some (c0 ++ pl ++ rl))
    (hp2 : ∀ l ∈ rlLines rl, parse l = none) :
    (processFile parse fsys1 none project st f).2 = [] ∧
    (processFile parse fsys1 none project st f).1.filePositions f =
      some (c0 ++ pl).length ∧
    (processFile parse fsys2 none project
      (processFile parse fsys1 none project st f).1 f).2 = [] := by
  have key : ∀ (fsysx : String → Option (List Char)) (stx : WatchState)
      (a b : List Char), stx.filePositions f = some a.length →
      fsysx f = some (a ++ b) → (∀ l ∈ rlLines b, parse l = none) →
      (processFile parse fsysx none project stx f).2 = [] ∧
      (processFile parse fsysx none project stx f).1.filePositions f =
        some (a ++ b).length := by
    intro fsysx stx a b hpx hfx hpb
    have e1 : extractAllMessagesF parse (a ++ b) a.length none = [] := by
      apply extract_nil
      intro l hl
      apply hpb
      rwa [List.drop_left] at hl
    simp only [processFile, hpx, hfx, e1, emitNew]
    exact ⟨rfl, by simp⟩
  obtain ⟨k1, k2⟩ := key fsys1 st c0 pl hpos hf1 hp1
  exact ⟨k1, k2, (key fsys2 _ (c0 ++ pl) rl k2 hf2 hp2).1⟩

/-- C3 counterexample: with pre-existing content of 2 bytes, appending the
partial line `{u` moves the cursor to 4 (past the partial line), and after
the line is completed to the valid record `{u1}` no message is ever
emitted — the claim demanded the cursor stay at 2 and exactly one emission
after completion. -/
theorem claim3_counterexample :
    (watchConversations parseEx none schedC3).2 = [] ∧
    (watchConversations parseEx none (schedC3.take 2)).1.filePositions "f" =
      some 4 ∧
    (watchConversations parseEx none (schedC3.take 2)).1.filePositions "f" ≠
      some 2 ∧
    parseEx ("{u1}".data) = some recEx ∧
    processRecord recEx ≠ [] := by
  decide

/-- C3 witness: the partial-line theorem evaluated on the concrete
scenario. -/
theorem claim3_witness :
    (processFile parseEx fsC3b none "p" stW3 "f").2 = [] ∧
    (processFile parseEx fsC3b none "p" stW3 "f").1.filePositions "f" =
      some ("x\n".data ++ "\x7bu".data).length ∧
    (processFile parseEx fsC3c none "p"
      (processFile parseEx fsC3b none "p" stW3 "f").1 "f").2 = [] :=
  claim3_partial_line_consumed parseEx fsC3b fsC3c "p" stW3 "x\n".data
    "\x7bu".data "1\x7d\n".data "f" (by decide) (by decide) (by decide) (by decide)
    (by decide)

/-- C4 (amended): on a tick where the file is readable, the stored cursor is
overwritten with the current file size; as long as the file has not shrunk
below the stored cursor this is non-decreasing. (A shrinking file moves the
cursor backwards; see the counterexample.) -/
theorem claim4_cursor_monotone (parse : List Char → Option JsonRecord)
    (fsys : String → Option (List Char)) (fail : Option Nat) (project : String)
    (st : WatchState) (f : String) (p : Nat) (c : List Char)
    (hpos : st.filePositions f = some p) (hfs : fsys f = some c)
    (hgrow : p ≤ c.length) :
    (processFile parse fsys fail project st f).1.filePositions f =
      some c.length ∧ p ≤ c.length := by
  refine ⟨?_, hgrow⟩
  simp only [processFile, hpos, hfs]
  simp

/-- C4 counterexample: a file whose size shrinks from 5 to 3 between ticks
makes the stored cursor sequence decrease from 5 to 3. -/
theorem claim4_counterexample :
    (watchConversations pNone none (schedC4.take 1)).1.filePositions "f" =
      some 5 ∧
    (watchConversations pNone none schedC4).1.filePositions "f" = some 3 ∧
    ¬ (5 : Nat) ≤ 3 := by
  decide

/-- C4 witness: the monotonicity theorem evaluated on a concrete growing
file. -/
theorem claim4_witness :
    (processFile pNone fsysC5 none "p" stC5 "f").1.filePositions "f" =
      some contentC5.length ∧ 0 ≤ contentC5.length :=
  claim4_cursor_monotone pNone fsysC5 none "p" stC5 "f" 0 contentC5
    (by decide) (by decide) (by decide)

/-- C5 (amended): when a fetch fails after `k ≥ 1` lines, the messages read
before the failure are still emitted (the batch is not treated as empty) and
the cursor is still advanced to the current file size, so the unread
remainder is not re-attempted. -/
theorem claim5_partial_batch (parse : List Char → Option JsonRecord)
    (fsys : String → Option (List Char)) (project : String) (st : WatchState)
    (f : String) (k p : Nat) (c l : List Char) (ls : List (List Char))
    (m : Message) (hpos : st.filePositions f = some p) (hfs : fsys f = some c)
    (hlines : rlLines (c.drop p) = l :: ls)
    (hline : processLine parse l = [m])
    (hm : m.id ∉ st.seenResponses f) (hk : 1 ≤ k) :
    (⟨project, f, m⟩ : LogEmission) ∈
      (processFile parse fsys (some k) project st f).2 ∧
    (processFile parse fsys (some k) project st f).1.filePositions f =
      some c.length := by
  obtain ⟨k', rfl⟩ : ∃ k', k = k' + 1 := ⟨k - 1, by omega⟩
  have hmsgs : extractAllMessagesF parse c p (some (k' + 1)) =
      m :: ((ls.take k').map (processLine parse)).flatten := by
    simp only [extractAllMessagesF, hlines, List.take_succ_cons, List.map_cons,
      List.flatten_cons, hline]
    rfl
  simp only [processFile, hpos, hfs, hmsgs]
  rw [emitNew, if_neg hm]
  constructor
  · simp only [List.map_cons]
    exact List.mem_cons_self _ _
  · simp

/-- C5 counterexample: a two-line batch whose fetch fails after one line
emits that first message (the batch is not empty for the tick) and the
cursor is advanced to the full file size instead of staying put. -/
theorem claim5_counterexample :
    (processFile parseC5 fsysC5 (some 1) "p" stC5 "f").2 ≠ [] ∧
    (processFile parseC5 fsysC5 (some 1) "p" stC5 "f").1.filePositions "f" =
      some 8 ∧
    (processFile parseC5 fsysC5 (some 1) "p" stC5 "f").1.filePositions "f" ≠
      some 0 ∧
    (extractAllMessagesF parseC5 contentC5 0 none).length = 2 := by
  decide

/-- C5 witness: the mid-batch failure theorem evaluated on the concrete
two-line batch with failure after one line. -/
theorem claim5_witness :
    (⟨"p", "f", mA⟩ : LogEmission) ∈
      (processFile parseC5 fsysC5 (some 1) "p" stC5 "f").2 ∧
    (processFile parseC5 fsysC5 (some 1) "p" stC5 "f").1.filePositions "f" =
      some contentC5.length :=
  claim5_partial_batch parseC5 fsysC5 "p" stC5 "f" 1 0 contentC5 "{a}".data
    ["{b}".data] mA (by decide) (by decide) (by decide) (by decide) (by decide)
    (by decide)

/-- C6 (amended): on any log-source tick the emissions are ordered by
ascending project label (the displayed unit label), and per file they are a
subsequence of the batch the adapter returned, in order. (The key-value
source processes conversations in store order, which need not be sorted; see
the counterexample.) -/
theorem claim6_log_interleaving :
    (∀ (parse : List Char → Option JsonRecord)
        (fsys : String → Option (List Char)) (st : WatchState)
        (convFiles : List (String × List String)),
      StrSorted ((tickLog parse fsys st convFiles).2.map fun e => e.project)) ∧
    (∀ (parse : List Char → Option JsonRecord)
        (fsys : String → Option (List Char)) (fail : Option Nat)
        (project : String) (st : WatchState) (f : String) (lastPos : Nat)
        (c : List Char), st.filePositions f = some lastPos → fsys f = some c →
      List.Sublist
        ((processFile parse fsys fail project st f).2.map fun e => e.message)
        (extractAllMessagesF parse c lastPos fail)) :=
  ⟨tickLog_sorted,
    fun _ _ _ _ _ _ _ _ h1 h2 => processFile_order h1 h2⟩

/-- C6 counterexample: two key-value conversations named `b` and `a`, both
with fresh content, are emitted in store order `b, a`, not in ascending
label order. -/
theorem claim6_counterexample :
    ((watchCursorConversations none [⟨fetchHi, convsC6⟩]).2.map
      fun e => e.convName) = ["b", "a"] ∧
    ¬ StrSorted ["b", "a"] := by
  constructor
  · decide
  · intro h
    have := (List.pairwise_cons.mp h).1 "a" (List.mem_cons_self _ _)
    exact absurd this (by decide)

/-- C6 witness: the interleaving theorem evaluated on a concrete one-project
tick. -/
theorem claim6_witness :
    StrSorted ((tickLog parseC5 fsysC5 stC5 [("p", ["f"])]).2.map
      fun e => e.project) ∧
    List.Sublist
      ((processFile parseC5 fsysC5 none "p" stC5 "f").2.map fun e => e.message)
      (extractAllMessagesF parseC5 contentC5 0 none) :=
  ⟨claim6_log_interleaving.1 parseC5 fsysC5 stC5 [("p", ["f"])],
    claim6_log_interleaving.2 parseC5 fsysC5 none "p" stC5 "f" 0 contentC5
      (by decide) (by decide)⟩

/-- C7 (amended): every message the log-file source emits has non-empty,
already-trimmed, non-blank text; every text the key-value source emits has a
non-blank trim, but it is printed untrimmed and so need not equal its own
trimmed form (see the counterexample). -/
theorem claim7_text_trimmed :
    (∀ (parse : List Char → Option JsonRecord) (filt : Option String)
        (sched : List TickInput) (e : LogEmission),
      e ∈ (watchConversations parse filt sched).2 →
      e.message.text ≠ "" ∧ jsTrim e.message.text = e.message.text ∧
        jsTrim e.message.text ≠ "") ∧
    (∀ (filt : Option String) (sched : List CursorTick) (e : CEmission),
      e ∈ (watchCursorConversations filt sched).2 → jsTrim e.text ≠ "") := by
  constructor
  · intro parse filt sched e he
    have hg := watchRun_good parse filt sched initState e he
    exact ⟨hg.1, hg.2, by rw [hg.2]; exact hg.1⟩
  · intro filt sched e he
    exact cursorRun_text filt sched [] e he

/-- C7 counterexample: a bubble whose stored text is `" hi"` is emitted with
its leading whitespace intact, so the emitted text differs from its trimmed
form. -/
theorem claim7_counterexample :
    ((watchCursorConversations none
      [⟨fetchC7, [⟨"c", [⟨"b", 1⟩]⟩]⟩]).2.map fun e => e.text) = [" hi"] ∧
    jsTrim " hi" ≠ " hi" := by
  decide

/-- C7 witness: the text theorem evaluated on concrete runs of both
sources. -/
theorem claim7_witness :
    (e7.message.text ≠ "" ∧ jsTrim e7.message.text = e7.message.text ∧
      jsTrim e7.message.text ≠ "") ∧
    jsTrim (" hi" : String) ≠ "" :=
  ⟨claim7_text_trimmed.1 parseEx none schedC7 e7 (by decide),
    claim7_text_trimmed.2 none [⟨fetchC7, [⟨"c", [⟨"b", 1⟩]⟩]⟩]
      ⟨"c", true, " hi", "b"⟩ (by decide)⟩

/-- C8 (amended): both sources suspend for a fixed constant interval between
ticks, but the key-value source's interval (500ms) is longer than the
log-file source's (100ms): the key-value source polls slower, not faster. -/
theorem claim8_intervals :
    msgPollIntervalMs < cursorPollIntervalMs ∧ msgPollIntervalMs = 100 ∧
      cursorPollIntervalMs = 500 := by
  decide

/-- C8 counterexample: the key-value source's interval is not shorter than
the log-file source's, contradicting the claim that it polls faster. -/
theorem claim8_counterexample :
    ¬ cursorPollIntervalMs < msgPollIntervalMs := by
  decide

/-- C9: a record without a uuid gets the identifier `""`, and per file at
most one message with identifier `""` is ever emitted over the whole run, so
all later uuid-less messages are suppressed by the dedup check. -/
theorem claim9_missing_uuid :
    (∀ (data : JsonRecord), data.uuid = none →
      ∀ m ∈ processRecord data, m.id = "") ∧
    (∀ (parse : List Char → Option JsonRecord) (filt : Option String)
        (sched : List TickInput) (p : String),
      ((watchConversations parse filt sched).2.filter
        fun e => e.filePath == p && e.message.id == "").length ≤ 1) := by
  constructor
  · intro data hu m hm
    rw [processRecord_id hm, hu]
    rfl
  · intro parse filt sched p
    exact length_filter_pair p "" _ ((watchConversations_LInv parse filt sched) p).1

/-- C9 witness: the uuid-collapse theorem evaluated on a concrete uuid-less
record and a concrete run. -/
theorem claim9_witness :
    mU.id = "" ∧
    ((watchConversations parseEx none schedC7).2.filter
      fun e => e.filePath == "f" && e.message.id == "").length ≤ 1 :=
  ⟨claim9_missing_uuid.1 recU rfl mU (by decide),
    claim9_missing_uuid.2 parseEx none schedC7 "f"⟩

/-- C10: the key-value seen-set is process-global, so each bubble id is
emitted at most once across the whole run even when it appears in several
conversations, and any emission of it is attributed to the first scanned
conversation whose headers contain it. -/
theorem claim10_global_dedup :
    (∀ (filt : Option String) (sched : List CursorTick) (b : String),
      ((watchCursorConversations filt sched).2.filter
        fun e => e.bubbleId == b).length ≤ 1) ∧
    (∀ (fetch : String → Option String) (seen : List String)
        (c1 : Conversation) (rest : List Conversation) (b : String)
        (e : CEmission), b ∉ seen → b ∈ c1.headers.map Header.bubbleId →
      e ∈ (processConversations fetch none seen (c1 :: rest)).2 →
      e.bubbleId = b → e.convName = c1.cname) := by
  constructor
  · intro filt sched b
    exact clength_le_one b _ (watchCursorConversations_CInv filt sched).1
  · intro fetch seen c1 rest b e h1 h2 h3 h4
    exact processConversations_first_attr fetch rest c1 seen b e h1 h2 h3 h4

/-- C10 witness: the global-dedup theorem evaluated on two concrete
conversations sharing the bubble id `b`. -/
theorem claim10_witness : e10.convName = "c1" :=
  claim10_global_dedup.2 fetch10 [] conv10a [conv10b] "b" e10 (by decide)
    (by decide) (by decide) rfl

end Extract
